import Mathlib

/-!
# Verification of the MCP filesystem server core (src/main.py)

A shallow embedding of the path sandbox (`normalize_path`) and the
filesystem operations layer (`read_file`, `write_file`, `list_directory`,
`delete_path`, `create_directory`) of the server, together with theorems
settling the specification claims about them.

Modelling conventions:
* a canonical absolute path is a list of name components (`Path`);
* a caller-supplied path string is modelled after parsing into segments
  (`RawPath`): ordinary names, `.` and `..`;
* the filesystem is a finite association list from canonical paths to
  nodes: regular files (with their stored bytes), directories (with a
  readability flag: an unreadable directory makes `iterdir` raise
  `PermissionError`), symbolic links, and "other" objects such as FIFOs
  and sockets;
* text encodings are abstract codecs: a per-character byte encoding and a
  byte-string decoding, lawful in the sense that decoding inverts a
  successful encoding (as Python codecs are); a concrete `latin1` codec
  instantiates them;
* `Path.resolve()` is `resolvePath`, with fuel bounding symlink
  expansion (Python raises on symlink loops; running out of fuel maps to
  the resolution-failure outcome);
* Python text I/O newline handling on Linux is modelled faithfully:
  writing translates nothing (os.linesep is LF) and reading applies
  universal-newline translation (CRLF and lone CR both become LF);
* every endpoint takes the filesystem state and returns the new state
  together with an `Except` outcome mirroring the `HTTPException`s the
  code raises (status code plus a structured stand-in for the detail
  string).
-/

namespace McpFs

/-- One component-level segment of a caller-supplied path string:
a plain name, `.`, or `..`. -/
inductive Seg where
  | name (s : String)
  | dot
  | dotdot
  deriving DecidableEq, Repr

/-- A canonical absolute path: its list of name components
(the filesystem root is `[]`). -/
abbrev Path := List String

/-- A caller-supplied path after parsing: absolute or relative,
with its segments in order. -/
structure RawPath where
  absolute : Bool
  segs : List Seg
  deriving DecidableEq, Repr

/-- Build an absolute raw path from plain name components. -/
def mkAbs (names : List String) : RawPath :=
  ⟨true, names.map Seg.name⟩

/-- A filesystem node: a regular file with its stored bytes, a directory
(with a flag telling whether `iterdir` succeeds on it), a symbolic link
with its target, or another object kind (FIFO, socket, device). -/
inductive Node where
  | file (bs : List Nat)
  | dir (readable : Bool)
  | symlink (target : RawPath)
  | other
  deriving DecidableEq, Repr

/-- The filesystem state: a finite association list from canonical
absolute paths to nodes. -/
abbrev Fs := List (Path × Node)

/-- Look a canonical path up in the filesystem (first match). -/
def lookupFs : Fs → Path → Option Node
  | [], _ => none
  | e :: rest, p => if e.1 = p then some e.2 else lookupFs rest p

/-- The symbolic-link target stored at a canonical path, if the node
there is a symbolic link (what resolution inspects at each step). -/
def symAt (fs : Fs) (p : Path) : Option RawPath :=
  match lookupFs fs p with
  | some (Node.symlink t) => some t
  | _ => none

/-- `Path.resolve()`: walk the segments, resolving `.` and `..`
lexically on the already-canonical prefix and following symbolic links
through the filesystem; missing or non-symlink components are kept as
names (non-strict resolution). `fuel` bounds the resolution work (one
unit per segment, symlink-expanded segments included); the source
resolver is unbounded except that the OS errors out on symlink loops,
which exhausting the fuel models (any finite resolution succeeds
unchanged once the fuel is large enough). -/
def resolveSegs (fs : Fs) : Nat → Path → List Seg → Option Path
  | _, cur, [] => some cur
  | 0, _, _ :: _ => none
  | fuel + 1, cur, seg :: rest =>
    match seg with
    | Seg.dot => resolveSegs fs fuel cur rest
    | Seg.dotdot => resolveSegs fs fuel cur.dropLast rest
    | Seg.name n =>
      match symAt fs (cur ++ [n]) with
      | some t =>
        resolveSegs fs fuel (if t.absolute then [] else cur) (t.segs ++ rest)
      | none => resolveSegs fs fuel (cur ++ [n]) rest

/-- `Path(raw).resolve()`: a relative path is first anchored at the
current working directory (itself canonical), an absolute one at the
root. -/
def resolvePath (fs : Fs) (fuel : Nat) (cwd : Path) (raw : RawPath) : Option Path :=
  resolveSegs fs fuel (if raw.absolute then [] else cwd) raw.segs

/-- `resolved.relative_to(root)` succeeds exactly when the root's
components are a prefix of the resolved path's components (so the path
equals the root or is a descendant of it); in particular
`/workspace-evil` is not under `/workspace`. -/
def isUnder (root p : Path) : Bool :=
  root.isPrefixOf p

/-- The containment loop of `normalize_path`: some allowed root accepts
the canonical path. -/
def containedInSome (roots : List Path) (p : Path) : Bool :=
  roots.any fun root => isUnder root p

/-- The exception wrapped into the 400 "Invalid path" handler of
`normalize_path`: either the canonicalization itself failed, or — the
access-denied 403 `HTTPException` raised inside the same `try` block,
which the `except Exception` clause catches and rewraps. -/
inductive InnerExc where
  | resolveFailed
  | deniedExc (roots : List Path)
  deriving DecidableEq, Repr

/-- The exception captured by the `except` clause of `delete_path`. -/
inductive DeleteExc where
  | directoryNotEmpty (p : Path)
  deriving DecidableEq, Repr

/-- A structured stand-in for the `detail` string of each
`HTTPException` the endpoints raise. -/
inductive Detail where
  | invalidPath (inner : InnerExc)
  | fileNotFound
  | pathNotFound
  | dirNotFound
  | notAFile
  | notADirectory
  | fileTooLarge (maxSize : Int)
  | cannotDecode
  | errorWritingFile
  | errorDeletingPath (exc : DeleteExc)
  | errorCreatingDir
  deriving DecidableEq, Repr

/-- A failure outcome of an endpoint: an `HTTPException` with its status
code and detail, or an exception that escapes the endpoint unhandled
(surfaced by the framework as an internal server error). -/
inductive Err where
  | http (status : Nat) (detail : Detail)
  | unhandled
  deriving DecidableEq, Repr

/-- The HTTP status code a failure outcome surfaces with (an unhandled
exception becomes a framework 500). -/
def Err.statusCode : Err → Nat
  | Err.http s _ => s
  | Err.unhandled => 500

/-- The ambient request environment: the allowed roots (canonical, from
configuration at startup), the process working directory, and the
symlink-expansion fuel. -/
structure Env where
  roots : List Path
  cwd : Path
  fuel : Nat

/-- `normalize_path` of src/main.py: canonicalize the caller-supplied
path, then accept it if some allowed root contains it. Both failure
exits surface as a 400 "Invalid path" `HTTPException`: a resolution
failure directly, and the access-denied case because the 403
`HTTPException` constructed inside the `try` block is itself caught by
the `except Exception` clause and rewrapped with status 400. -/
def normalize_path (env : Env) (fs : Fs) (raw : RawPath) : Except Err Path :=
  match resolvePath fs env.fuel env.cwd raw with
  | none => Except.error (Err.http 400 (Detail.invalidPath InnerExc.resolveFailed))
  | some p =>
    if containedInSome env.roots p then Except.ok p
    else Except.error (Err.http 400 (Detail.invalidPath (InnerExc.deniedExc env.roots)))

/-- Remove every entry stored under exactly the canonical path `p`. -/
def removeFs (fs : Fs) (p : Path) : Fs :=
  fs.filter fun e => e.1 ≠ p

/-- Store node `node` at canonical path `p` (overwriting any previous
entry for `p`). -/
def setFs (fs : Fs) (p : Path) (node : Node) : Fs :=
  (p, node) :: removeFs fs p

/-- `shutil.rmtree(p)`: remove `p` together with every path below it. -/
def removeTree (fs : Fs) (p : Path) : Fs :=
  fs.filter fun e => ¬ isUnder p e.1

/-- Does the canonical path exist (`path.exists()`)? -/
def existsAt (fs : Fs) (p : Path) : Bool :=
  (lookupFs fs p).isSome

/-- Is the canonical path a directory (`path.is_dir()`)? -/
def isDirAt (fs : Fs) (p : Path) : Bool :=
  match lookupFs fs p with
  | some (Node.dir _) => true
  | _ => false

/-- Is the canonical path a regular file (`path.is_file()`)? -/
def isFileAt (fs : Fs) (p : Path) : Bool :=
  match lookupFs fs p with
  | some (Node.file _) => true
  | _ => false

/-- Is the canonical path a directory whose `iterdir()` succeeds
(readable), as opposed to raising `PermissionError`? -/
def readableDirAt (fs : Fs) (p : Path) : Bool :=
  match lookupFs fs p with
  | some (Node.dir r) => r
  | _ => false

/-- The byte size `stat().st_size` reports for a regular file (0 for
anything else; only used on files). -/
def sizeAt (fs : Fs) (p : Path) : Nat :=
  match lookupFs fs p with
  | some (Node.file bs) => bs.length
  | _ => 0

/-- The names of the direct children of `p`, in filesystem enumeration
order (`iterdir()`; order is the storage order of the model). -/
def childNames (fs : Fs) (p : Path) : List String :=
  fs.filterMap fun e =>
    if e.1.length = p.length + 1 ∧ e.1.take p.length = p then
      (e.1.drop p.length).head?
    else none

/-- The `FileInfo` record `get_file_info` builds: name, canonical path,
kind (`"directory"` when `is_dir()`, otherwise `"file"`), and size
(populated only for regular files). Timestamp, permission bits and MIME
guess are outside the model. -/
structure FileInfo where
  name : String
  path : Path
  type : String
  size : Option Nat
  deriving DecidableEq, Repr

/-- Compute `get_file_info` for an existing canonical path. -/
def fileInfoAt (fs : Fs) (p : Path) : FileInfo :=
  { name := p.getLastD ""
    path := p
    type := if isDirAt fs p then "directory" else "file"
    size := match lookupFs fs p with
      | some (Node.file bs) => some bs.length
      | _ => none }

/-- Encode a character list with a per-character codec, failing if any
character is not representable (`UnicodeEncodeError`). -/
def encodeChars (encChar : Char → Option (List Nat)) : List Char → Option (List Nat)
  | [] => some []
  | c :: cs =>
    match encChar c, encodeChars encChar cs with
    | some b, some bs => some (b ++ bs)
    | _, _ => none

/-- An abstract text codec, standing in for Python's codec registry: a
per-character encoding, a decoding of whole byte strings, and the law —
shared by the real codecs — that decoding inverts a successful
encoding. -/
structure Encoding where
  encChar : Char → Option (List Nat)
  decBytes : List Nat → Option (List Char)
  decBytes_encodeChars : ∀ (cs : List Char) (bs : List Nat),
    encodeChars encChar cs = some bs → decBytes bs = some cs

/-- The latin-1 codec: each of the first 256 code points is one byte. -/
def latin1EncChar (c : Char) : Option (List Nat) :=
  if c.toNat < 256 then some [c.toNat] else none

/-- Latin-1 decoding: every byte below 256 maps back to its code point. -/
def latin1DecBytes (bs : List Nat) : Option (List Char) :=
  if bs.all (fun b => b < 256) then some (bs.map Char.ofNat) else none

/-- The latin-1 codec packaged as an `Encoding`. -/
def latin1 : Encoding where
  encChar := latin1EncChar
  decBytes := latin1DecBytes
  decBytes_encodeChars := by
    intro cs bs h
    induction cs generalizing bs with
    | nil =>
      simp only [encodeChars] at h
      cases h
      rfl
    | cons c cs ih =>
      simp only [encodeChars, latin1EncChar] at h
      by_cases hc : c.toNat < 256
      · simp only [if_pos hc] at h
        cases hrec : encodeChars latin1EncChar cs with
        | none => rw [hrec] at h; exact absurd h (by simp)
        | some tl =>
          rw [hrec] at h
          cases h
          have htl := ih tl hrec
          simp only [latin1DecBytes] at htl ⊢
          by_cases hall : tl.all (fun b => b < 256)
          · simp only [hall, if_pos] at htl
            cases htl
            simp only [List.all_cons, List.cons_append, List.nil_append]
            rw [if_pos]
            · simp only [List.map_cons, Option.some.injEq, List.cons.injEq]
              constructor
              · exact Char.ofNat_toNat c
              · trivial
            · simp only [List.all_cons, hall, decide_eq_true_eq, and_true]
              simpa using hc
          · simp [hall] at htl
      · simp [if_neg hc] at h

/-- Universal-newline translation applied by `read_text` (text mode,
`newline=None`): a `"\r\n"` pair and a lone `"\r"` both become
`"\n"`. -/
def uniNewlines : List Char → List Char
  | [] => []
  | [c] => if c = '\r' then ['\n'] else [c]
  | c :: d :: rest =>
    if c = '\r' then
      if d = '\n' then '\n' :: uniNewlines rest
      else '\n' :: uniNewlines (d :: rest)
    else c :: uniNewlines (d :: rest)

/-- The body of `/read-file` (`ReadFileRequest`). -/
structure ReadFileRequest where
  path : RawPath
  encoding : Encoding
  max_size : Int

/-- The body of `/write-file` (`WriteFileRequest`). -/
structure WriteFileRequest where
  path : RawPath
  content : List Char
  encoding : Encoding
  create_dirs : Bool

/-- The body of `/list-directory` (`ListDirectoryRequest`). -/
structure ListDirectoryRequest where
  path : RawPath
  recursive : Bool
  show_hidden : Bool

/-- The body of `/delete-path` (`DeletePathRequest`). -/
structure DeletePathRequest where
  path : RawPath
  recursive : Bool
  deriving DecidableEq, Repr

/-- The successful payload of `/read-file`: the decoded content and the
file's metadata. -/
structure ReadResult where
  content : List Char
  file_info : FileInfo
  deriving DecidableEq, Repr

/-- The successful payload of `/list-directory` (`DirectoryListing`). -/
structure DirectoryListing where
  path : Path
  items : List FileInfo
  total_items : Nat
  deriving DecidableEq, Repr

/-- The message of the `SuccessResponse` a `/delete-path` call returns;
the endpoint returns Python `None` (JSON null) when neither the file nor
the directory branch fires. -/
inductive DeleteMsg where
  | fileDeleted (p : Path)
  | dirDeletedRecursively (p : Path)
  | dirDeleted (p : Path)
  deriving DecidableEq, Repr

/-- `/read-file`: sandbox, existence check (404), regular-file check
(400), size check against `max_size` (413, detail carrying the limit),
then `read_text`: decode with the requested codec (a decode failure is a
400) and apply universal-newline translation. -/
def read_file (env : Env) (fs : Fs) (req : ReadFileRequest) : Except Err ReadResult :=
  match normalize_path env fs req.path with
  | Except.error e => Except.error e
  | Except.ok p =>
    if ¬ existsAt fs p then Except.error (Err.http 404 Detail.fileNotFound)
    else if ¬ isFileAt fs p then Except.error (Err.http 400 Detail.notAFile)
    else if (sizeAt fs p : Int) > req.max_size then
      Except.error (Err.http 413 (Detail.fileTooLarge req.max_size))
    else
      match lookupFs fs p with
      | some (Node.file bs) =>
        match req.encoding.decBytes bs with
        | none => Except.error (Err.http 400 Detail.cannotDecode)
        | some cs =>
          Except.ok { content := uniNewlines cs, file_info := fileInfoAt fs p }
      | _ => Except.error (Err.http 400 Detail.notAFile)

/-- `Path.mkdir(parents=True, exist_ok=True)` along the component chain
of the target: existing directories are kept, missing ones are created,
and any component already present as a non-directory raises
(`FileExistsError` / `NotADirectoryError`). -/
def ensureDirs (fs : Fs) (cur : Path) : List String → Except Unit Fs
  | [] => Except.ok fs
  | n :: rest =>
    match lookupFs fs (cur ++ [n]) with
    | some (Node.dir _) => ensureDirs fs (cur ++ [n]) rest
    | none => ensureDirs (setFs fs (cur ++ [n]) (Node.dir true)) (cur ++ [n]) rest
    | some _ => Except.error ()

/-- `p.mkdir(parents=True, exist_ok=True)` for a canonical path. -/
def mkdirParents (fs : Fs) (p : Path) : Except Unit Fs :=
  ensureDirs fs [] p

/-- `file_path.write_text(content, encoding=...)`: encode the content
(`UnicodeEncodeError` on unrepresentable characters; Linux text mode
translates nothing on output) and store the bytes, creating the file if
its parent directory exists and overwriting an existing regular file;
a directory or special node at the path, or a missing parent, raises. -/
def writeTextAt (fs : Fs) (p : Path) (enc : Encoding) (content : List Char) :
    Except Unit Fs :=
  match encodeChars enc.encChar content with
  | none => Except.error ()
  | some bs =>
    match lookupFs fs p with
    | some (Node.file _) => Except.ok (setFs fs p (Node.file bs))
    | none =>
      if isDirAt fs p.dropLast then Except.ok (setFs fs p (Node.file bs))
      else Except.error ()
    | some _ => Except.error ()

/-- `/write-file`: sandbox, then — when `create_dirs` — a
`parent.mkdir(parents=True, exist_ok=True)` that sits OUTSIDE the `try`
block (so its exceptions escape the endpoint unhandled), then
`write_text` inside the `try` (failure there is a 500). Returns the new
filesystem state and the outcome. -/
def write_file (env : Env) (fs : Fs) (req : WriteFileRequest) :
    Fs × Except Err FileInfo :=
  match normalize_path env fs req.path with
  | Except.error e => (fs, Except.error e)
  | Except.ok p =>
    match (if req.create_dirs then mkdirParents fs p.dropLast else Except.ok fs) with
    | Except.error _ => (fs, Except.error Err.unhandled)
    | Except.ok fs1 =>
      match writeTextAt fs1 p req.encoding req.content with
      | Except.error _ => (fs1, Except.error (Err.http 500 Detail.errorWritingFile))
      | Except.ok fs2 => (fs2, Except.ok (fileInfoAt fs2 p))

/-- `name.startswith('.')`: the name's first character is a dot. -/
def startsWithDot (n : String) : Bool :=
  match n.data with
  | c :: _ => c = '.'
  | [] => false

/-- Is a directory entry shown: hidden names (leading `.`) are skipped
unless `show_hidden` is set. -/
def visibleName (show_hidden : Bool) (n : String) : Bool :=
  show_hidden || ! startsWithDot n

/-- The body of the `add_items` closure of `/list-directory`, with `gas`
as the structural recursion bound: iterate the directory (a
`PermissionError` from `iterdir` is caught by the surrounding `try` and
yields nothing), skip hidden names unless requested, emit each entry's
`FileInfo`, and — when `recursive` and the entry is a directory and
`level < 10` — descend with `level + 1`. Every call keeps the invariant
`gas = 11 - level`, so the `gas = 0` arm is never reached at the levels
the source can call (`level ≤ 10`, since recursion is guarded by
`level < 10` and the endpoint starts at level 0). -/
def addItemsGas (fs : Fs) (show_hidden recursive : Bool) :
    Nat → Path → Nat → List FileInfo
  | 0, _, _ => []
  | gas + 1, p, level =>
    if readableDirAt fs p then
      (childNames fs p).flatMap fun n =>
        if visibleName show_hidden n then
          fileInfoAt fs (p ++ [n]) ::
            (if recursive ∧ isDirAt fs (p ++ [n]) ∧ level < 10 then
              addItemsGas fs show_hidden recursive gas (p ++ [n]) (level + 1)
            else [])
        else []
    else []

/-- The `add_items` closure at a given level (the endpoint calls it at
level 0). -/
def addItems (fs : Fs) (show_hidden recursive : Bool) (p : Path) (level : Nat) :
    List FileInfo :=
  addItemsGas fs show_hidden recursive (11 - level) p level

/-- `/list-directory`: sandbox, existence check (404), directory check
(400), then the `add_items` traversal starting at level 0. -/
def list_directory (env : Env) (fs : Fs) (req : ListDirectoryRequest) :
    Except Err DirectoryListing :=
  match normalize_path env fs req.path with
  | Except.error e => Except.error e
  | Except.ok p =>
    if ¬ existsAt fs p then Except.error (Err.http 404 Detail.dirNotFound)
    else if ¬ isDirAt fs p then Except.error (Err.http 400 Detail.notADirectory)
    else
      Except.ok
        { path := p
          items := addItems fs req.show_hidden req.recursive p 0
          total_items := (addItems fs req.show_hidden req.recursive p 0).length }

/-- `/delete-path`: sandbox, existence check (404); a regular file is
unlinked; a directory is removed as a subtree when `recursive`, and
otherwise `rmdir` succeeds only on an empty directory — on a non-empty
one the `OSError` is caught by the `except` clause and rewrapped as a
500 "Error deleting path". A node that is neither file nor directory
falls through both branches: the handler returns Python `None` (an
empty success-shaped result) and deletes nothing. -/
def delete_path (env : Env) (fs : Fs) (req : DeletePathRequest) :
    Fs × Except Err (Option DeleteMsg) :=
  match normalize_path env fs req.path with
  | Except.error e => (fs, Except.error e)
  | Except.ok p =>
    if ¬ existsAt fs p then (fs, Except.error (Err.http 404 Detail.pathNotFound))
    else if isFileAt fs p then
      (removeFs fs p, Except.ok (some (DeleteMsg.fileDeleted p)))
    else if isDirAt fs p then
      if req.recursive then
        (removeTree fs p, Except.ok (some (DeleteMsg.dirDeletedRecursively p)))
      else if childNames fs p = [] then
        (removeFs fs p, Except.ok (some (DeleteMsg.dirDeleted p)))
      else
        (fs, Except.error
          (Err.http 500 (Detail.errorDeletingPath (DeleteExc.directoryNotEmpty p))))
    else
      (fs, Except.ok none)

/-- `/create-directory`: sandbox, then
`mkdir(parents=True, exist_ok=True)` inside a `try` whose `except`
rewraps any failure as a 500 "Error creating directory". -/
def create_directory (env : Env) (fs : Fs) (raw : RawPath) :
    Fs × Except Err FileInfo :=
  match normalize_path env fs raw with
  | Except.error e => (fs, Except.error e)
  | Except.ok p =>
    match mkdirParents fs p with
    | Except.error _ => (fs, Except.error (Err.http 500 Detail.errorCreatingDir))
    | Except.ok fs1 => (fs1, Except.ok (fileInfoAt fs1 p))

/-- A descendant chain below a listed directory, as the traversal
requires it: starting at `p`, each step goes through a readable
directory, to a child whose name passes the hidden-name filter; every
intermediate step is a directory, and the final path exists. Exactly
the paths whose entries a recursive listing can reach (up to the depth
bound, which is accounted for separately). -/
def chainOk (fs : Fs) (sh : Bool) : Path → List String → Bool
  | _, [] => false
  | p, n :: rest =>
    readableDirAt fs p && visibleName sh n &&
      (match rest with
       | [] => existsAt fs (p ++ [n])
       | _ :: _ => isDirAt fs (p ++ [n]) && chainOk fs sh (p ++ [n]) rest)

/-- Modelled from the spec: the specification's error taxonomy makes
`DirectoryNotEmpty` "a distinct, inspectable outcome — never silently
coerced into a generic failure", where `IOError` is the catch-all for
underlying OS failures, surfaced by this server as status 500. The
source has no such outcome, so the minimal observable the spec promises
is that the failure does not surface with the catch-all status. -/
def distinctFromCatchAll (e : Err) : Bool :=
  Err.statusCode e ≠ 500

/-- Fixture: one allowed root `/workspace`, working directory `/`. -/
def envW : Env := { roots := [["workspace"]], cwd := [], fuel := 8 }

/-- Fixture: the configuration default, allowed roots `/workspace` and
`/tmp`. -/
def envDefault : Env := { roots := [["workspace"], ["tmp"]], cwd := [], fuel := 8 }

/-- Fixture: a bare allowed root. -/
def fsRoot : Fs := [(["workspace"], Node.dir true)]

/-- Fixture: `/workspace/link` is a symbolic link to `/etc`, which holds
`passwd`. -/
def fsSym : Fs :=
  [ (["workspace"], Node.dir true),
    (["workspace", "link"], Node.symlink (mkAbs ["etc"])),
    (["etc"], Node.dir true),
    (["etc", "passwd"], Node.file [104, 105]) ]

/-- Fixture: the component names of a twelve-deep directory chain. -/
def chainNames : List String :=
  ["a1", "a2", "a3", "a4", "a5", "a6", "a7", "a8", "a9", "a10", "a11", "a12"]

/-- Fixture: the canonical path `n` levels down the chain. -/
def chainPath (n : Nat) : Path :=
  "workspace" :: chainNames.take n

/-- Fixture: `/workspace/a1/a2/.../a12`, a directory nested twelve
levels below the listed directory. -/
def fsChain : Fs :=
  (List.range 13).map fun n => (chainPath n, Node.dir true)

/-- Fixture: the items a recursive listing of `/workspace` produces on
the twelve-deep chain. -/
def chainItems : List FileInfo :=
  addItems fsChain false true ["workspace"] 0

/-- Fixture: `/workspace/a.txt` holds the five bytes of `"hello"`. -/
def fsHello : Fs :=
  [ (["workspace"], Node.dir true),
    (["workspace", "a.txt"], Node.file [104, 101, 108, 108, 111]) ]

/-- Fixture: `/workspace/d` is a non-empty directory. -/
def fsNonEmpty : Fs :=
  [ (["workspace"], Node.dir true),
    (["workspace", "d"], Node.dir true),
    (["workspace", "d", "f"], Node.file [1]) ]

/-- Fixture: `/workspace/u` is an unreadable directory (its `iterdir`
raises `PermissionError`) hiding a file, next to a readable sibling
file `/workspace/v.txt`. -/
def fsPerm : Fs :=
  [ (["workspace"], Node.dir true),
    (["workspace", "u"], Node.dir false),
    (["workspace", "u", "secret"], Node.file [1]),
    (["workspace", "v.txt"], Node.file [2]) ]

/-- Fixture: a hidden directory `/workspace/.git` with a descendant,
next to a visible subtree `/workspace/src`. -/
def fsHidden : Fs :=
  [ (["workspace"], Node.dir true),
    (["workspace", ".git"], Node.dir true),
    (["workspace", ".git", "config"], Node.file [1]),
    (["workspace", "src"], Node.dir true),
    (["workspace", "src", "m.py"], Node.file [2]) ]

/-- Fixture: `/workspace/fifo` is a node that is neither a regular file
nor a directory. -/
def fsFifo : Fs :=
  [ (["workspace"], Node.dir true),
    (["workspace", "fifo"], Node.other) ]

/-- Fixture: the filesystem after writing the bytes of `"x\ry"` (latin-1)
to `/workspace/a.txt` on the bare root. -/
def fsWritten : Fs :=
  [ (["workspace", "a.txt"], Node.file [120, 13, 121]),
    (["workspace"], Node.dir true) ]

/-- Fixture: the filesystem after writing the bytes of `"hi"` (latin-1)
to `/workspace/b.txt` on the bare root. -/
def fsWrittenHi : Fs :=
  [ (["workspace", "b.txt"], Node.file [104, 105]),
    (["workspace"], Node.dir true) ]

/-- Fixture: the filesystem after creating `/workspace/nd` on the bare
root. -/
def fsNd : Fs :=
  [ (["workspace", "nd"], Node.dir true),
    (["workspace"], Node.dir true) ]

/-! ## Helper lemmas about the association-list filesystem -/

theorem lookupFs_removeFs (fs : Fs) (p q : Path) :
    lookupFs (removeFs fs p) q = if q = p then none else lookupFs fs q := by
  induction fs with
  | nil => simp [removeFs, lookupFs]
  | cons e rest ih =>
    by_cases he : e.1 = p
    · rw [show removeFs (e :: rest) p = removeFs rest p from by
        simp [removeFs, he]]
      rw [ih]
      by_cases hq : q = p
      · simp [hq]
      · have hne : e.1 ≠ q := fun h => hq (by rw [← h, he])
        simp [hq, lookupFs, hne]
    · rw [show removeFs (e :: rest) p = e :: removeFs rest p from by
        simp [removeFs, he]]
      by_cases heq : e.1 = q
      · have hq : ¬ q = p := fun h => he (by rw [heq, h])
        simp [lookupFs, heq, hq]
      · simp [lookupFs, heq, ih]

theorem lookupFs_setFs (fs : Fs) (p : Path) (node : Node) (q : Path) :
    lookupFs (setFs fs p node) q =
      if q = p then some node else lookupFs fs q := by
  by_cases hq : q = p
  · subst hq
    simp [setFs, lookupFs]
  · have hq' : p ≠ q := fun h => hq h.symm
    simp [setFs, lookupFs, hq', lookupFs_removeFs, hq]

theorem lookupFs_removeTree (fs : Fs) (p q : Path) :
    lookupFs (removeTree fs p) q =
      if isUnder p q then none else lookupFs fs q := by
  induction fs with
  | nil => simp [removeTree, lookupFs]
  | cons e rest ih =>
    by_cases he : isUnder p e.1
    · rw [show removeTree (e :: rest) p = removeTree rest p from by
        simp [removeTree, he]]
      rw [ih]
      by_cases hq : isUnder p q
      · simp [hq]
      · have hne : e.1 ≠ q := fun h => hq (h ▸ he)
        simp [hq, lookupFs, hne]
    · rw [show removeTree (e :: rest) p = e :: removeTree rest p from by
        simp [removeTree, he]]
      by_cases heq : e.1 = q
      · have hq : ¬ isUnder p q := fun h => he (heq ▸ h)
        simp [lookupFs, heq, hq]
      · simp [lookupFs, heq, ih]

theorem existsAt_iff_mem (fs : Fs) (q : Path) :
    existsAt fs q = true ↔ ∃ e, e ∈ fs ∧ e.1 = q := by
  induction fs with
  | nil =>
    constructor
    · intro h
      exact absurd h (by simp [existsAt, lookupFs])
    · rintro ⟨e', he', _⟩
      cases he'
  | cons e rest ih =>
    unfold existsAt lookupFs
    by_cases heq : e.1 = q
    · rw [if_pos heq]
      simp only [Option.isSome_some, true_iff]
      exact ⟨e, List.mem_cons_self e rest, heq⟩
    · rw [if_neg heq]
      rw [show (lookupFs rest q).isSome = existsAt rest q from rfl, ih]
      constructor
      · rintro ⟨e', he', hk⟩
        exact ⟨e', List.mem_cons_of_mem _ he', hk⟩
      · rintro ⟨e', he', hk⟩
        rcases List.mem_cons.mp he' with h | h
        · exact absurd (h ▸ hk) heq
        · exact ⟨e', h, hk⟩

theorem childNames_mem_iff (fs : Fs) (p : Path) (n : String) :
    n ∈ childNames fs p ↔ existsAt fs (p ++ [n]) = true := by
  constructor
  · intro hmem
    rcases List.mem_filterMap.mp hmem with ⟨e, he, hcond⟩
    by_cases hc : e.1.length = p.length + 1 ∧ e.1.take p.length = p
    · rw [if_pos hc] at hcond
      have hk : e.1 = p ++ [n] := by
        have hsplit := List.take_append_drop p.length e.1
        have hdlen : (e.1.drop p.length).length = 1 := by
          rw [List.length_drop, hc.1]
          omega
        rcases List.length_eq_one.mp hdlen with ⟨a, ha⟩
        have han : a = n := by
          rw [ha] at hcond
          simpa using hcond
        rw [← hsplit, hc.2, ha, han]
      exact (existsAt_iff_mem fs (p ++ [n])).mpr ⟨e, he, hk⟩
    · rw [if_neg hc] at hcond
      exact absurd hcond (by simp)
  · intro hex
    rcases (existsAt_iff_mem fs (p ++ [n])).mp hex with ⟨e, he, hk⟩
    refine List.mem_filterMap.mpr ⟨e, he, ?_⟩
    rw [hk]
    rw [if_pos ?side]
    case side =>
      constructor
      · simp
      · exact List.take_left p [n]
    rw [List.drop_left p [n]]
    rfl


/-! ## Resolution depends only on the symbolic links -/

theorem resolveSegs_congr (fs fs' : Fs) (hsym : ∀ q, symAt fs' q = symAt fs q) :
    ∀ (fuel : Nat) (cur : Path) (segs : List Seg),
      resolveSegs fs' fuel cur segs = resolveSegs fs fuel cur segs := by
  intro fuel
  induction fuel with
  | zero =>
    intro cur segs
    cases segs with
    | nil => rfl
    | cons seg rest => rfl
  | succ f ih =>
    intro cur segs
    cases segs with
    | nil => rfl
    | cons seg rest =>
      cases seg with
      | dot => exact ih cur rest
      | dotdot => exact ih cur.dropLast rest
      | name n =>
        have hunfold : ∀ g : Fs, resolveSegs g (f + 1) cur (Seg.name n :: rest) =
            (match symAt g (cur ++ [n]) with
             | some t =>
               resolveSegs g f (if t.absolute then [] else cur) (t.segs ++ rest)
             | none => resolveSegs g f (cur ++ [n]) rest) := fun g => rfl
        rw [hunfold fs', hunfold fs, hsym]
        cases hl : symAt fs (cur ++ [n]) with
        | some t => exact ih (if t.absolute then [] else cur) (t.segs ++ rest)
        | none => exact ih (cur ++ [n]) rest

theorem normalize_path_congr (env : Env) (fs fs' : Fs) (raw : RawPath)
    (hsym : ∀ q, symAt fs' q = symAt fs q) :
    normalize_path env fs' raw = normalize_path env fs raw := by
  unfold normalize_path resolvePath
  rw [resolveSegs_congr fs fs' hsym]

/-! ## Lemmas about `mkdir(parents=True, exist_ok=True)` -/

theorem ensureDirs_longer :
    ∀ (l : List String) (fs : Fs) (cur : Path) (fs' : Fs),
      ensureDirs fs cur l = Except.ok fs' →
      ∀ q : Path, q.length ≤ cur.length → lookupFs fs' q = lookupFs fs q := by
  intro l
  induction l with
  | nil =>
    intro fs cur fs' h q _
    simp only [ensureDirs, Except.ok.injEq] at h
    rw [h]
  | cons n rest ih =>
    intro fs cur fs' h q hq
    unfold ensureDirs at h
    cases hl : lookupFs fs (cur ++ [n]) with
    | none =>
      rw [hl] at h
      have hstep := ih _ _ _ h q (by simp; omega)
      rw [hstep, lookupFs_setFs]
      rw [if_neg]
      intro hcontra
      have : q.length = cur.length + 1 := by rw [hcontra]; simp
      omega
    | some node =>
      cases node with
      | dir r =>
        rw [hl] at h
        exact ih _ _ _ h q (by simp; omega)
      | file bs => rw [hl] at h; exact absurd h (by simp)
      | symlink t => rw [hl] at h; exact absurd h (by simp)
      | other => rw [hl] at h; exact absurd h (by simp)

theorem ensureDirs_makes_dirs :
    ∀ (l : List String) (fs : Fs) (cur : Path) (fs' : Fs),
      ensureDirs fs cur l = Except.ok fs' →
      ∀ (pre suf : List String), pre ≠ [] → l = pre ++ suf →
        isDirAt fs' (cur ++ pre) = true := by
  intro l
  induction l with
  | nil =>
    intro fs cur fs' h pre suf hpre hsplit
    cases pre with
    | nil => exact absurd rfl hpre
    | cons a b => cases hsplit
  | cons n rest ih =>
    intro fs cur fs' h pre suf hpre hsplit
    cases pre with
    | nil => exact absurd rfl hpre
    | cons m pre' =>
      have hm : n = m := by
        have hh := congrArg (List.head? ·) hsplit
        simpa using hh
      subst hm
      have hrest : rest = pre' ++ suf := by
        have ht := congrArg (List.tail ·) hsplit
        simpa using ht
      unfold ensureDirs at h
      cases hl : lookupFs fs (cur ++ [n]) with
      | none =>
        rw [hl] at h
        cases pre' with
        | nil =>
          have hpres := ensureDirs_longer _ _ _ _ h (cur ++ [n]) (by simp)
          have hfin : lookupFs fs' (cur ++ [n]) = some (Node.dir true) := by
            rw [hpres, lookupFs_setFs, if_pos rfl]
          simp [isDirAt, hfin]
        | cons b pre'' =>
          have hd := ih _ _ _ h (b :: pre'') suf (by simp) hrest
          rw [List.append_cons]
          exact hd
      | some node =>
        cases node with
        | dir r =>
          rw [hl] at h
          cases pre' with
          | nil =>
            have hpres := ensureDirs_longer _ _ _ _ h (cur ++ [n]) (by simp)
            have hfin : lookupFs fs' (cur ++ [n]) = some (Node.dir r) := by
              rw [hpres, hl]
            simp [isDirAt, hfin]
          | cons b pre'' =>
            have hd := ih _ _ _ h (b :: pre'') suf (by simp) hrest
            rw [List.append_cons]
            exact hd
        | file bs => rw [hl] at h; exact absurd h (by simp)
        | symlink t => rw [hl] at h; exact absurd h (by simp)
        | other => rw [hl] at h; exact absurd h (by simp)

theorem ensureDirs_of_all_dirs :
    ∀ (l : List String) (fs : Fs) (cur : Path),
      (∀ (pre suf : List String), pre ≠ [] → l = pre ++ suf →
        isDirAt fs (cur ++ pre) = true) →
      ensureDirs fs cur l = Except.ok fs := by
  intro l
  induction l with
  | nil =>
    intro fs cur _
    rfl
  | cons n rest ih =>
    intro fs cur hall
    have hd : isDirAt fs (cur ++ [n]) = true := hall [n] rest (by simp) rfl
    unfold isDirAt at hd
    unfold ensureDirs
    cases hl : lookupFs fs (cur ++ [n]) with
    | none => rw [hl] at hd; cases hd
    | some node =>
      cases node with
      | dir r =>
        have hrec := ih fs (cur ++ [n]) ?hsub
        · rw [hrec]
        case hsub =>
          intro pre suf hpre hsplit
          have hup := hall (n :: pre) suf (by simp) (by rw [hsplit, List.cons_append])
          rw [List.append_cons] at hup
          exact hup
      | file bs => rw [hl] at hd; cases hd
      | symlink t => rw [hl] at hd; cases hd
      | other => rw [hl] at hd; cases hd

theorem ensureDirs_symAt :
    ∀ (l : List String) (fs : Fs) (cur : Path) (fs' : Fs),
      ensureDirs fs cur l = Except.ok fs' →
      ∀ q, symAt fs' q = symAt fs q := by
  intro l
  induction l with
  | nil =>
    intro fs cur fs' h q
    simp only [ensureDirs, Except.ok.injEq] at h
    rw [h]
  | cons n rest ih =>
    intro fs cur fs' h q
    unfold ensureDirs at h
    cases hl : lookupFs fs (cur ++ [n]) with
    | none =>
      rw [hl] at h
      have hstep := ih _ _ _ h q
      rw [hstep]
      unfold symAt
      rw [lookupFs_setFs]
      by_cases hq : q = cur ++ [n]
      · rw [if_pos hq, hq, hl]
      · rw [if_neg hq]
    | some node =>
      cases node with
      | dir r =>
        rw [hl] at h
        exact ih _ _ _ h q
      | file bs => rw [hl] at h; exact absurd h (by simp)
      | symlink t => rw [hl] at h; exact absurd h (by simp)
      | other => rw [hl] at h; exact absurd h (by simp)

/-! ## Lemmas about the listing traversal -/

theorem flatMap_if_singleton {α β : Type} (l : List α) (pr : α → Bool) (f : α → β) :
    (l.flatMap fun n => if pr n then [f n] else []) = (l.filter pr).map f := by
  induction l with
  | nil => rfl
  | cons a l ih =>
    by_cases ha : pr a
    · rw [List.filter_cons_of_pos (by simpa using ha)]
      simp only [List.flatMap_cons, ha, if_pos, List.map_cons]
      rw [ih]
      rfl
    · rw [List.filter_cons_of_neg (by simpa using ha)]
      simp only [List.flatMap_cons, ha, if_neg, List.map_cons]
      rw [ih]
      simp

theorem existsAt_of_isDirAt (fs : Fs) (p : Path) (h : isDirAt fs p = true) :
    existsAt fs p = true := by
  unfold isDirAt at h
  unfold existsAt
  cases hl : lookupFs fs p with
  | none => rw [hl] at h; cases h
  | some node => simp

theorem addItemsGas_norec (fs : Fs) (sh : Bool) (p : Path) (gas level : Nat)
    (hr : readableDirAt fs p = true) :
    addItemsGas fs sh false (gas + 1) p level =
      ((childNames fs p).filter (visibleName sh)).map
        (fun n => fileInfoAt fs (p ++ [n])) := by
  rw [addItemsGas, if_pos hr]
  rw [← flatMap_if_singleton (childNames fs p) (visibleName sh)
    (fun n => fileInfoAt fs (p ++ [n]))]
  apply List.flatMap_congr
  intro n _
  by_cases hv : visibleName sh n
  · rw [if_pos hv, if_pos hv]
    rw [if_neg]
    rintro ⟨hfalse, -⟩
    cases hfalse
  · rw [if_neg hv, if_neg hv]

theorem addItemsGas_shape :
    ∀ (gas : Nat) (fs : Fs) (sh rc : Bool) (p : Path) (level : Nat),
      ∀ e, e ∈ addItemsGas fs sh rc gas p level →
        ∃ s : List String, s ≠ [] ∧ e = fileInfoAt fs (p ++ s) ∧
          chainOk fs sh p s = true ∧ s.length ≤ gas := by
  intro gas
  induction gas with
  | zero =>
    intro fs sh rc p level e he
    simp [addItemsGas] at he
  | succ g ih =>
    intro fs sh rc p level e he
    rw [addItemsGas] at he
    by_cases hr : readableDirAt fs p
    · rw [if_pos hr] at he
      rcases List.mem_flatMap.mp he with ⟨n, hn, hbr⟩
      by_cases hv : visibleName sh n
      · rw [if_pos hv] at hbr
        rcases List.mem_cons.mp hbr with he1 | he2
        · refine ⟨[n], by simp, he1, ?_, by simp⟩
          simp [chainOk, hr, hv, (childNames_mem_iff fs p n).mp hn]
        · by_cases hcond : rc = true ∧ isDirAt fs (p ++ [n]) = true ∧ level < 10
          · rw [if_pos hcond] at he2
            rcases ih fs sh rc (p ++ [n]) (level + 1) e he2 with
              ⟨s', hs'ne, hes', hchain', hlen'⟩
            refine ⟨n :: s', by simp, ?_, ?_, by simp; omega⟩
            · rw [hes']
              simp
            · cases s' with
              | nil => exact absurd rfl hs'ne
              | cons b s'' =>
                have hstep : chainOk fs sh p (n :: b :: s'') =
                    (readableDirAt fs p && visibleName sh n &&
                      (isDirAt fs (p ++ [n]) && chainOk fs sh (p ++ [n]) (b :: s''))) := rfl
                rw [hstep]
                simp [hr, hv, hcond.2.1, hchain']
          · rw [if_neg hcond] at he2
            cases he2
      · rw [if_neg hv] at hbr
        cases hbr
    · rw [if_neg hr] at he
      cases he

theorem addItemsGas_complete :
    ∀ (s : List String) (fs : Fs) (sh : Bool) (p : Path) (gas level : Nat),
      chainOk fs sh p s = true → s.length ≤ gas → gas + level = 11 →
      fileInfoAt fs (p ++ s) ∈ addItemsGas fs sh true gas p level := by
  intro s
  induction s with
  | nil =>
    intro fs sh p gas level hch _ _
    simp [chainOk] at hch
  | cons n rest ih =>
    intro fs sh p gas level hch hlen hinv
    cases gas with
    | zero => simp at hlen
    | succ g =>
      cases rest with
      | nil =>
        simp only [chainOk, Bool.and_eq_true] at hch
        obtain ⟨⟨hr, hv⟩, hex⟩ := hch
        rw [addItemsGas, if_pos hr]
        refine List.mem_flatMap.mpr ⟨n, (childNames_mem_iff fs p n).mpr hex, ?_⟩
        rw [if_pos hv]
        exact List.mem_cons_self _ _
      | cons b rest' =>
        have hstep : chainOk fs sh p (n :: b :: rest') =
            (readableDirAt fs p && visibleName sh n &&
              (isDirAt fs (p ++ [n]) && chainOk fs sh (p ++ [n]) (b :: rest'))) := rfl
        rw [hstep] at hch
        simp only [Bool.and_eq_true] at hch
        obtain ⟨⟨hr, hv⟩, hd, hch'⟩ := hch
        have hg : 1 ≤ g := by
          simp only [List.length_cons] at hlen
          omega
        have hlt : level < 10 := by omega
        have hmem := ih fs sh (p ++ [n]) g (level + 1) hch' (by
            simp only [List.length_cons] at hlen ⊢
            omega) (by omega)
        rw [addItemsGas, if_pos hr]
        refine List.mem_flatMap.mpr
          ⟨n, (childNames_mem_iff fs p n).mpr (existsAt_of_isDirAt _ _ hd), ?_⟩
        rw [if_pos hv]
        apply List.mem_cons_of_mem
        rw [if_pos ⟨rfl, hd, hlt⟩]
        have harr : p ++ n :: b :: rest' = (p ++ [n]) ++ b :: rest' := by simp
        rw [harr]
        exact hmem

theorem chainOk_visible :
    ∀ (s : List String) (fs : Fs) (sh : Bool) (p : Path),
      chainOk fs sh p s = true → ∀ n ∈ s, visibleName sh n = true := by
  intro s
  induction s with
  | nil =>
    intro fs sh p _ n hn
    cases hn
  | cons a rest ih =>
    intro fs sh p h n hn
    cases rest with
    | nil =>
      simp only [chainOk, Bool.and_eq_true] at h
      rcases List.mem_cons.mp hn with rfl | hm
      · exact h.1.2
      · cases hm
    | cons b rest' =>
      have hstep : chainOk fs sh p (a :: b :: rest') =
          (readableDirAt fs p && visibleName sh a &&
            (isDirAt fs (p ++ [a]) && chainOk fs sh (p ++ [a]) (b :: rest'))) := rfl
      rw [hstep] at h
      simp only [Bool.and_eq_true] at h
      rcases List.mem_cons.mp hn with rfl | hm
      · exact h.1.2
      · exact ih fs sh (p ++ [a]) h.2.2 n hm

/-! ## Endpoint-level helper lemmas -/

theorem isUnder_refl (p : Path) : isUnder p p = true := by
  unfold isUnder
  induction p with
  | nil => rfl
  | cons a t ih => simp [List.isPrefixOf, ih]

theorem uniNewlines_no_cr : ∀ cs : List Char, '\r' ∉ cs → uniNewlines cs = cs := by
  intro cs
  induction cs with
  | nil => intro; rfl
  | cons c rest ih =>
    intro h
    have hc : c ≠ '\r' := by
      intro e
      exact h (e ▸ List.mem_cons_self c rest)
    have hrest : '\r' ∉ rest := fun m => h (List.mem_cons_of_mem c m)
    cases rest with
    | nil => simp [uniNewlines, hc]
    | cons d tl =>
      rw [uniNewlines, if_neg hc]
      rw [ih hrest]

theorem list_directory_ok (env : Env) (fs : Fs) (raw : RawPath) (d : Path)
    (rc sh : Bool)
    (hn : normalize_path env fs raw = Except.ok d)
    (hex : existsAt fs d = true) (hdir : isDirAt fs d = true) :
    list_directory env fs ⟨raw, rc, sh⟩ =
      Except.ok ⟨d, addItems fs sh rc d 0, (addItems fs sh rc d 0).length⟩ := by
  simp [list_directory, hn, hex, hdir]

theorem writeTextAt_ok (fs : Fs) (p : Path) (enc : Encoding) (content : List Char)
    (fs2 : Fs) (h : writeTextAt fs p enc content = Except.ok fs2) :
    ∃ bs, encodeChars enc.encChar content = some bs ∧
      fs2 = setFs fs p (Node.file bs) ∧
      (lookupFs fs p = none ∨ ∃ old, lookupFs fs p = some (Node.file old)) := by
  unfold writeTextAt at h
  cases henc : encodeChars enc.encChar content with
  | none =>
    rw [henc] at h
    have h0 : (Except.error () : Except Unit Fs) = Except.ok fs2 := h
    exact absurd h0 (by simp)
  | some bs =>
    rw [henc] at h
    have h1 : (match lookupFs fs p with
        | some (Node.file _) => Except.ok (setFs fs p (Node.file bs))
        | none =>
          if isDirAt fs p.dropLast then Except.ok (setFs fs p (Node.file bs))
          else Except.error ()
        | some _ => (Except.error () : Except Unit Fs)) = Except.ok fs2 := h
    cases hl : lookupFs fs p with
    | none =>
      rw [hl] at h1
      by_cases hpd : isDirAt fs p.dropLast = true
      · rw [if_pos hpd] at h1
        have hfs2 : setFs fs p (Node.file bs) = fs2 := by
          injection h1
        exact ⟨bs, rfl, hfs2.symm, Or.inl rfl⟩
      · rw [if_neg (by simpa using hpd)] at h1
        exact absurd h1 (by simp)
    | some node =>
      rw [hl] at h1
      cases node with
      | file old =>
        have hfs2 : setFs fs p (Node.file bs) = fs2 := by
          injection h1
        exact ⟨bs, rfl, hfs2.symm, Or.inr ⟨old, rfl⟩⟩
      | dir r => exact absurd h1 (by simp)
      | symlink t => exact absurd h1 (by simp)
      | other => exact absurd h1 (by simp)

theorem write_file_ok (env : Env) (fs : Fs) (wreq : WriteFileRequest)
    (fs' : Fs) (info : FileInfo)
    (hw : write_file env fs wreq = (fs', Except.ok info)) :
    ∃ p bs, normalize_path env fs wreq.path = Except.ok p ∧
      encodeChars wreq.encoding.encChar wreq.content = some bs ∧
      lookupFs fs' p = some (Node.file bs) ∧
      info = fileInfoAt fs' p ∧
      normalize_path env fs' wreq.path = Except.ok p := by
  unfold write_file at hw
  cases hnorm : normalize_path env fs wreq.path with
  | error e =>
    rw [hnorm] at hw
    have h0 : (fs, (Except.error e : Except Err FileInfo)) = (fs', Except.ok info) := hw
    exact absurd h0 (by simp)
  | ok p =>
    rw [hnorm] at hw
    have h1 : (match
          (if wreq.create_dirs then mkdirParents fs p.dropLast else Except.ok fs) with
        | Except.error _ => (fs, (Except.error Err.unhandled : Except Err FileInfo))
        | Except.ok fs1 =>
          match writeTextAt fs1 p wreq.encoding wreq.content with
          | Except.error _ =>
            (fs1, Except.error (Err.http 500 Detail.errorWritingFile))
          | Except.ok fs2 => (fs2, Except.ok (fileInfoAt fs2 p))) =
        (fs', Except.ok info) := hw
    cases hmk : (if wreq.create_dirs then mkdirParents fs p.dropLast else Except.ok fs) with
    | error u =>
      rw [hmk] at h1
      exact absurd h1 (by simp)
    | ok fs1 =>
      rw [hmk] at h1
      have h2 : (match writeTextAt fs1 p wreq.encoding wreq.content with
          | Except.error _ =>
            (fs1, (Except.error (Err.http 500 Detail.errorWritingFile) :
              Except Err FileInfo))
          | Except.ok fs2 => (fs2, Except.ok (fileInfoAt fs2 p))) =
          (fs', Except.ok info) := h1
      have hsym1 : ∀ q, symAt fs1 q = symAt fs q := by
        by_cases hcd : wreq.create_dirs = true
        · rw [if_pos hcd] at hmk
          exact ensureDirs_symAt p.dropLast fs [] fs1 hmk
        · rw [if_neg hcd] at hmk
          injection hmk with hmk'
          intro q
          rw [hmk']
      cases hwt : writeTextAt fs1 p wreq.encoding wreq.content with
      | error u =>
        rw [hwt] at h2
        exact absurd h2 (by simp)
      | ok fs2 =>
        rw [hwt] at h2
        have hfs' : fs2 = fs' := congrArg Prod.fst h2
        have hinfo : Except.ok (fileInfoAt fs2 p) = Except.ok info :=
          congrArg Prod.snd h2
        injection hinfo with hinfo'
        obtain ⟨bs, henc, hset, hold⟩ := writeTextAt_ok fs1 p _ _ fs2 hwt
        have hsym2 : ∀ q, symAt fs2 q = symAt fs1 q := by
          intro q
          rw [hset]
          unfold symAt
          rw [lookupFs_setFs]
          by_cases hq : q = p
          · subst hq
            rcases hold with hnone | ⟨old, hfile⟩
            · rw [if_pos rfl, hnone]
            · rw [if_pos rfl, hfile]
          · rw [if_neg hq]
        have hsym : ∀ q, symAt fs' q = symAt fs q := by
          intro q
          rw [← hfs', hsym2 q, hsym1 q]
        refine ⟨p, bs, rfl, henc, ?_, ?_, ?_⟩
        · rw [← hfs', hset, lookupFs_setFs, if_pos rfl]
        · rw [← hinfo', hfs']
        · rw [normalize_path_congr env fs fs' wreq.path hsym, hnorm]

/-! ## Claim theorems -/

/-- C1: for every caller-supplied path whose canonical form — computed
first, by resolving `.`/`..` segments and symbolic links against the
working directory — is neither equal to an allowed root nor a
descendant of one under component-wise prefix comparison (so a sibling
such as `/workspace-evil` does not match the root `/workspace`),
`normalize_path` rejects the path with a failure outcome. -/
theorem normalize_path_rejects_outside_roots (env : Env) (fs : Fs) (raw : RawPath)
    (p : Path) (hres : resolvePath fs env.fuel env.cwd raw = some p)
    (hout : containedInSome env.roots p = false) :
    normalize_path env fs raw =
      Except.error (Err.http 400 (Detail.invalidPath (InnerExc.deniedExc env.roots))) := by
  simp [normalize_path, hres, hout]

/-- Witness for C1 at concrete inputs: with the single allowed root
`/workspace`, a `..` traversal reaching `/etc/passwd`, a symlink
`/workspace/link → /etc` followed through, and the sibling
`/workspace-evil/x` all canonicalize outside the root and are
rejected. -/
theorem normalize_path_rejects_outside_roots_witness :
    normalize_path envW fsSym
        ⟨true, [Seg.name "workspace", Seg.dotdot, Seg.name "etc", Seg.name "passwd"]⟩ =
      Except.error (Err.http 400 (Detail.invalidPath
        (InnerExc.deniedExc [["workspace"]]))) ∧
    normalize_path envW fsSym (mkAbs ["workspace", "link", "passwd"]) =
      Except.error (Err.http 400 (Detail.invalidPath
        (InnerExc.deniedExc [["workspace"]]))) ∧
    normalize_path envW fsSym (mkAbs ["workspace-evil", "x"]) =
      Except.error (Err.http 400 (Detail.invalidPath
        (InnerExc.deniedExc [["workspace"]]))) :=
  ⟨normalize_path_rejects_outside_roots envW fsSym _ ["etc", "passwd"] rfl rfl,
   normalize_path_rejects_outside_roots envW fsSym _ ["etc", "passwd"] rfl rfl,
   normalize_path_rejects_outside_roots envW fsSym _ ["workspace-evil", "x"] rfl rfl⟩

/-- C2 (code bug): on the default configuration, a valid path outside
every allowed root is not surfaced as a distinct 403 access-denied
outcome. The 403 `HTTPException` built in `normalize_path` (with the
allowed roots in its detail) is raised inside the same `try` block whose
`except Exception` clause catches every exception, so it is rewrapped
as the generic 400 "Invalid path" outcome; a caller cannot branch on
access-denied versus invalid-path. -/
theorem normalize_path_denied_coerced_to_invalid :
    normalize_path envDefault [] (mkAbs ["etc", "passwd"]) =
      Except.error (Err.http 400 (Detail.invalidPath
        (InnerExc.deniedExc [["workspace"], ["tmp"]]))) ∧
    Err.statusCode (Err.http 400 (Detail.invalidPath
        (InnerExc.deniedExc [["workspace"], ["tmp"]]))) = 400 :=
  ⟨rfl, rfl⟩

/-- C10: when the resolved path exists but is neither a regular file
nor a directory (a FIFO, say), `delete_path` skips both deletion
branches, deletes nothing, and falls through to the empty (Python
`None`) success-shaped result, whatever the `recursive` flag. -/
theorem delete_path_other_node_null (env : Env) (fs : Fs) (raw : RawPath)
    (p : Path) (rc : Bool)
    (hn : normalize_path env fs raw = Except.ok p)
    (ho : lookupFs fs p = some Node.other) :
    delete_path env fs ⟨raw, rc⟩ = (fs, Except.ok none) := by
  have hex : existsAt fs p = true := by
    unfold existsAt
    rw [ho]
    rfl
  have hnf : isFileAt fs p = false := by
    unfold isFileAt
    rw [ho]
  have hnd : isDirAt fs p = false := by
    unfold isDirAt
    rw [ho]
  simp [delete_path, hn, hex, hnf, hnd]

/-- Witness for C10: deleting the FIFO `/workspace/fifo` returns the
null result and leaves the filesystem unchanged. -/
theorem delete_path_other_node_null_witness :
    delete_path envW fsFifo ⟨mkAbs ["workspace", "fifo"], false⟩ =
      (fsFifo, Except.ok none) :=
  delete_path_other_node_null envW fsFifo _ ["workspace", "fifo"] false rfl rfl

/-- C7: for an existing regular file inside an allowed root, `read_file`
fails with the 413 `TooLarge` outcome — whose detail carries the limit —
exactly when the file's byte size strictly exceeds `max_size`; when the
size is at most `max_size` (equality included) the size check passes and
the file is read successfully (its content decoded with the requested
codec and universal-newline translated; an undecodable file is the
spec's separate decode-error failure mode, not a size failure). -/
theorem read_file_too_large_iff (env : Env) (fs : Fs) (raw : RawPath) (p : Path)
    (bs : List Nat) (enc : Encoding) (M : Int)
    (hn : normalize_path env fs raw = Except.ok p)
    (hf : lookupFs fs p = some (Node.file bs)) :
    (read_file env fs ⟨raw, enc, M⟩ =
        Except.error (Err.http 413 (Detail.fileTooLarge M)) ↔ (bs.length : Int) > M) ∧
    (∀ cs, (bs.length : Int) ≤ M → enc.decBytes bs = some cs →
      read_file env fs ⟨raw, enc, M⟩ =
        Except.ok { content := uniNewlines cs, file_info := fileInfoAt fs p }) := by
  have hex : existsAt fs p = true := by
    unfold existsAt
    rw [hf]
    rfl
  have hif : isFileAt fs p = true := by
    unfold isFileAt
    rw [hf]
  have hsz : sizeAt fs p = bs.length := by
    unfold sizeAt
    rw [hf]
  constructor
  · constructor
    · intro hres
      by_contra hM
      push_neg at hM
      cases hdec : enc.decBytes bs with
      | none =>
        have : read_file env fs ⟨raw, enc, M⟩ =
            Except.error (Err.http 400 Detail.cannotDecode) := by
          simp [read_file, hn, hex, hif, hsz, not_lt.mpr hM, hf, hdec]
        rw [this] at hres
        cases hres
      | some cs =>
        have : read_file env fs ⟨raw, enc, M⟩ =
            Except.ok { content := uniNewlines cs, file_info := fileInfoAt fs p } := by
          simp [read_file, hn, hex, hif, hsz, not_lt.mpr hM, hf, hdec]
        rw [this] at hres
        cases hres
    · intro hM
      simp [read_file, hn, hex, hif, hsz, hM]
  · intro cs hM hdec
    simp [read_file, hn, hex, hif, hsz, not_lt.mpr hM, hf, hdec]

/-- Witness for C7: `/workspace/a.txt` holds five bytes; reading with
`max_size = 4` yields the 413 `TooLarge` outcome carrying the limit,
and reading with `max_size = 5` (size equal to the limit) succeeds with
content `"hello"`. -/
theorem read_file_too_large_iff_witness :
    read_file envW fsHello ⟨mkAbs ["workspace", "a.txt"], latin1, 4⟩ =
      Except.error (Err.http 413 (Detail.fileTooLarge 4)) ∧
    read_file envW fsHello ⟨mkAbs ["workspace", "a.txt"], latin1, 5⟩ =
      Except.ok ⟨['h', 'e', 'l', 'l', 'o'],
        fileInfoAt fsHello ["workspace", "a.txt"]⟩ := by
  constructor
  · exact (read_file_too_large_iff envW fsHello (mkAbs ["workspace", "a.txt"])
      ["workspace", "a.txt"] [104, 101, 108, 108, 111] latin1 4 rfl rfl).1.mpr
      (by decide)
  · exact (read_file_too_large_iff envW fsHello (mkAbs ["workspace", "a.txt"])
      ["workspace", "a.txt"] [104, 101, 108, 108, 111] latin1 5 rfl rfl).2
      ['h', 'e', 'l', 'l', 'o'] (by decide) (by decide)

/-- C3 counterexample: deleting the existing non-empty directory
`/workspace/d` with `recursive = false` does fail and leave the
directory in place, but not with a distinct `DirectoryNotEmpty`
outcome: the `OSError` from `rmdir` is caught by the endpoint's generic
`except` clause and surfaces as the 500 catch-all "Error deleting path"
— the same status the spec reserves for the `IOError` catch-all, so the
outcome is not distinct from it. -/
theorem delete_path_nonempty_counterexample :
    delete_path envW fsNonEmpty ⟨mkAbs ["workspace", "d"], false⟩ =
      (fsNonEmpty, Except.error (Err.http 500 (Detail.errorDeletingPath
        (DeleteExc.directoryNotEmpty ["workspace", "d"])))) ∧
    distinctFromCatchAll (Err.http 500 (Detail.errorDeletingPath
        (DeleteExc.directoryNotEmpty ["workspace", "d"]))) = false :=
  ⟨rfl, rfl⟩

/-- C3 (amended): for an existing non-empty directory inside an allowed
root, `delete_path` with `recursive = false` fails — with the generic
500 "Error deleting path" outcome wrapping the underlying
directory-not-empty error, the code having no dedicated
`DirectoryNotEmpty` outcome — and the directory still exists afterward;
the same call with `recursive = true` succeeds and the directory no
longer exists afterward. -/
theorem delete_path_nonempty_dir (env : Env) (fs : Fs) (raw : RawPath) (d : Path)
    (r : Bool)
    (hn : normalize_path env fs raw = Except.ok d)
    (hd : lookupFs fs d = some (Node.dir r))
    (hne : childNames fs d ≠ []) :
    (delete_path env fs ⟨raw, false⟩ =
        (fs, Except.error (Err.http 500 (Detail.errorDeletingPath
          (DeleteExc.directoryNotEmpty d)))) ∧
      lookupFs fs d = some (Node.dir r)) ∧
    (delete_path env fs ⟨raw, true⟩ =
        (removeTree fs d, Except.ok (some (DeleteMsg.dirDeletedRecursively d))) ∧
      lookupFs (removeTree fs d) d = none) := by
  have hex : existsAt fs d = true := by
    unfold existsAt
    rw [hd]
    rfl
  have hnf : isFileAt fs d = false := by
    unfold isFileAt
    rw [hd]
  have hdir : isDirAt fs d = true := by
    unfold isDirAt
    rw [hd]
  refine ⟨⟨?_, hd⟩, ?_, ?_⟩
  · simp [delete_path, hn, hex, hnf, hdir, hne]
  · simp [delete_path, hn, hex, hnf, hdir]
  · rw [lookupFs_removeTree, if_pos (isUnder_refl d)]

/-- Witness for C3 at the concrete filesystem with non-empty
`/workspace/d`: the non-recursive delete fails with the 500 catch-all
and leaves the directory, the recursive delete removes the subtree. -/
theorem delete_path_nonempty_dir_witness :
    delete_path envW fsNonEmpty ⟨mkAbs ["workspace", "d"], true⟩ =
      (removeTree fsNonEmpty ["workspace", "d"],
        Except.ok (some (DeleteMsg.dirDeletedRecursively ["workspace", "d"]))) ∧
    lookupFs (removeTree fsNonEmpty ["workspace", "d"]) ["workspace", "d"] = none := by
  have h := delete_path_nonempty_dir envW fsNonEmpty (mkAbs ["workspace", "d"])
    ["workspace", "d"] true rfl rfl (by decide)
  exact h.2

/-- C8 counterexample: `/workspace/a.txt` is an existing regular file
inside the allowed root, and the FIRST `create_directory` call on it
already fails (the `FileExistsError` from `mkdir` — `exist_ok` does not
apply to non-directories — is rewrapped as the 500 "Error creating
directory" outcome), so "calling createDirectory(p) twice in a row
succeeds both times for every p inside an allowed root" is false. -/
theorem create_directory_counterexample :
    create_directory envW fsHello (mkAbs ["workspace", "a.txt"]) =
      (fsHello, Except.error (Err.http 500 Detail.errorCreatingDir)) :=
  rfl

/-- C8 (amended): `create_directory` is idempotent on success: whenever
a call succeeds, calling it again on the resulting state succeeds with
the same reply — the second call finding its directory (and every
parent) already in place and leaving the filesystem unchanged. -/
theorem create_directory_idempotent (env : Env) (fs : Fs) (raw : RawPath)
    (fs1 : Fs) (i1 : FileInfo)
    (h1 : create_directory env fs raw = (fs1, Except.ok i1)) :
    create_directory env fs1 raw = (fs1, Except.ok i1) := by
  unfold create_directory at h1 ⊢
  cases hnorm : normalize_path env fs raw with
  | error e =>
    rw [hnorm] at h1
    have h0 : (fs, (Except.error e : Except Err FileInfo)) = (fs1, Except.ok i1) := h1
    exact absurd h0 (by simp)
  | ok p =>
    rw [hnorm] at h1
    have h2 : (match mkdirParents fs p with
        | Except.error _ =>
          (fs, (Except.error (Err.http 500 Detail.errorCreatingDir) :
            Except Err FileInfo))
        | Except.ok fs' => (fs', Except.ok (fileInfoAt fs' p))) =
        (fs1, Except.ok i1) := h1
    cases hmk : mkdirParents fs p with
    | error u =>
      rw [hmk] at h2
      exact absurd h2 (by simp)
    | ok fs1' =>
      rw [hmk] at h2
      have hfs1 : fs1 = fs1' := (congrArg Prod.fst h2).symm
      have hinfo : Except.ok (fileInfoAt fs1' p) = Except.ok i1 :=
        congrArg Prod.snd h2
      injection hinfo with hinfo'
      subst hfs1
      have hsym : ∀ q, symAt fs1 q = symAt fs q :=
        ensureDirs_symAt p fs [] fs1 hmk
      have hdirs := ensureDirs_makes_dirs p fs [] fs1 hmk
      have hok : mkdirParents fs1 p = Except.ok fs1 :=
        ensureDirs_of_all_dirs p fs1 [] hdirs
      rw [normalize_path_congr env fs fs1 raw hsym, hnorm]
      show (match mkdirParents fs1 p with
        | Except.error _ =>
          (fs1, (Except.error (Err.http 500 Detail.errorCreatingDir) :
            Except Err FileInfo))
        | Except.ok fs' => (fs', Except.ok (fileInfoAt fs' p))) = (fs1, Except.ok i1)
      rw [hok]
      show (fs1, Except.ok (fileInfoAt fs1 p)) = (fs1, Except.ok i1)
      rw [hinfo']

/-- Witness for C8: creating `/workspace/nd` on the bare root succeeds,
and — by idempotence — the second call on the resulting state succeeds
with the identical reply. -/
theorem create_directory_idempotent_witness :
    create_directory envW fsRoot (mkAbs ["workspace", "nd"]) =
      (fsNd, Except.ok (fileInfoAt fsNd ["workspace", "nd"])) ∧
    create_directory envW fsNd (mkAbs ["workspace", "nd"]) =
      (fsNd, Except.ok (fileInfoAt fsNd ["workspace", "nd"])) := by
  have h1 : create_directory envW fsRoot (mkAbs ["workspace", "nd"]) =
      (fsNd, Except.ok (fileInfoAt fsNd ["workspace", "nd"])) := rfl
  exact ⟨h1, create_directory_idempotent envW fsRoot (mkAbs ["workspace", "nd"])
    fsNd (fileInfoAt fsNd ["workspace", "nd"]) h1⟩

/-- C6 counterexample: writing the content `"x\ry"` to
`/workspace/a.txt` succeeds, but reading it back with the same codec
and an ample `max_size` returns `"x\ny"`, not the written content:
`read_text` opens the file in text mode with universal newlines, so the
lone carriage return is translated to a line feed. -/
theorem write_read_roundtrip_counterexample :
    write_file envW fsRoot
        ⟨mkAbs ["workspace", "a.txt"], ['x', '\r', 'y'], latin1, true⟩ =
      (fsWritten, Except.ok (fileInfoAt fsWritten ["workspace", "a.txt"])) ∧
    read_file envW fsWritten ⟨mkAbs ["workspace", "a.txt"], latin1, 1024⟩ =
      Except.ok ⟨['x', '\n', 'y'], fileInfoAt fsWritten ["workspace", "a.txt"]⟩ ∧
    (['x', '\n', 'y'] : List Char) ≠ ['x', '\r', 'y'] :=
  ⟨rfl, rfl, by decide⟩

/-- C6 (amended): for every path inside an allowed root, every codec
and every content WITHOUT carriage-return characters, a successful
`write_file` followed by `read_file` with the same codec and a
`max_size` at least the written byte size returns exactly the written
content (content containing `"\r"` is returned with its carriage
returns translated by universal-newline reading, as the counterexample
shows). -/
theorem write_read_roundtrip (env : Env) (fs : Fs) (wreq : WriteFileRequest)
    (fs' : Fs) (info : FileInfo) (M : Int)
    (hw : write_file env fs wreq = (fs', Except.ok info))
    (hM : (sizeAt fs' info.path : Int) ≤ M)
    (hcr : '\r' ∉ wreq.content) :
    read_file env fs' ⟨wreq.path, wreq.encoding, M⟩ =
      Except.ok { content := wreq.content, file_info := info } := by
  obtain ⟨p, bs, hnorm, henc, hlook, hinfo, hnorm'⟩ :=
    write_file_ok env fs wreq fs' info hw
  have hpath : info.path = p := by
    rw [hinfo]
    rfl
  have hdec : wreq.encoding.decBytes bs = some wreq.content :=
    wreq.encoding.decBytes_encodeChars wreq.content bs henc
  have hex : existsAt fs' p = true := by
    unfold existsAt
    rw [hlook]
    rfl
  have hif : isFileAt fs' p = true := by
    unfold isFileAt
    rw [hlook]
  have hsz : sizeAt fs' p = bs.length := by
    unfold sizeAt
    rw [hlook]
  have hM' : ((bs.length : Int) ≤ M) := by
    rw [hpath, hsz] at hM
    exact hM
  have hres := (read_file_too_large_iff env fs' wreq.path p bs wreq.encoding M
    hnorm' hlook).2 wreq.content hM' hdec
  rw [hres, uniNewlines_no_cr wreq.content hcr, hinfo]

/-- Witness for C6: writing `"hi"` (no carriage returns) to
`/workspace/b.txt` and reading it back with `max_size = 1024` returns
exactly `"hi"`. -/
theorem write_read_roundtrip_witness :
    read_file envW fsWrittenHi ⟨mkAbs ["workspace", "b.txt"], latin1, 1024⟩ =
      Except.ok ⟨['h', 'i'], fileInfoAt fsWrittenHi ["workspace", "b.txt"]⟩ :=
  write_read_roundtrip envW fsRoot
    ⟨mkAbs ["workspace", "b.txt"], ['h', 'i'], latin1, true⟩
    fsWrittenHi (fileInfoAt fsWrittenHi ["workspace", "b.txt"]) 1024
    rfl (by decide) (by decide)

/-- C4 counterexample: on a directory chain twelve levels deep, the
recursive listing of `/workspace` succeeds and contains the entry
ELEVEN levels below the listed directory — the `level < 10` recursion
guard admits entries one level beyond the stated cap of 10 — so
"returns descendants down to the fixed depth cap of 10 levels; entries
lying beyond the cap are omitted" is false as stated (the entry twelve
levels down is indeed omitted, and the deep chain causes no failure). -/
theorem listing_depth_counterexample :
    list_directory envW fsChain ⟨mkAbs ["workspace"], true, false⟩ =
      Except.ok ⟨["workspace"], chainItems, chainItems.length⟩ ∧
    (chainPath 11).length = 12 ∧
    fileInfoAt fsChain (chainPath 11) ∈ chainItems ∧
    fileInfoAt fsChain (chainPath 12) ∉ chainItems :=
  ⟨rfl, rfl, by decide, by decide⟩

/-- C4 (amended): for an existing readable directory `d` inside an
allowed root, the non-recursive listing returns exactly the direct
children of `d` (those passing the hidden-name filter), with no deeper
descendants; the recursive listing returns exactly the entries
reachable from `d` through a chain of visible readable directories at
most ELEVEN levels deep — the `level < 10` guard admits depth 11, one
more than the spec's stated cap of 10 — and entries beyond that depth
are silently omitted: the listing still succeeds whatever the tree's
depth. -/
theorem listing_children_and_depth (env : Env) (fs : Fs) (raw : RawPath)
    (d : Path) (sh : Bool)
    (hn : normalize_path env fs raw = Except.ok d)
    (hr : lookupFs fs d = some (Node.dir true)) :
    (list_directory env fs ⟨raw, false, sh⟩ =
        Except.ok ⟨d,
          ((childNames fs d).filter (visibleName sh)).map
            (fun n => fileInfoAt fs (d ++ [n])),
          (((childNames fs d).filter (visibleName sh)).map
            (fun n => fileInfoAt fs (d ++ [n]))).length⟩) ∧
    (∀ L, list_directory env fs ⟨raw, true, sh⟩ = Except.ok L →
      (∀ e ∈ L.items, ∃ s : List String, s ≠ [] ∧ s.length ≤ 11 ∧
        e = fileInfoAt fs (d ++ s) ∧ chainOk fs sh d s = true) ∧
      (∀ s : List String, chainOk fs sh d s = true → s.length ≤ 11 →
        fileInfoAt fs (d ++ s) ∈ L.items)) ∧
    (∃ L, list_directory env fs ⟨raw, true, sh⟩ = Except.ok L) := by
  have hex : existsAt fs d = true := by
    unfold existsAt
    rw [hr]
    rfl
  have hdir : isDirAt fs d = true := by
    unfold isDirAt
    rw [hr]
  have hread : readableDirAt fs d = true := by
    unfold readableDirAt
    rw [hr]
  refine ⟨?_, ?_, ?_⟩
  · have hnorec : addItems fs sh false d 0 =
        ((childNames fs d).filter (visibleName sh)).map
          (fun n => fileInfoAt fs (d ++ [n])) :=
      addItemsGas_norec fs sh d 10 0 hread
    rw [list_directory_ok env fs raw d false sh hn hex hdir, hnorec]
  · intro L hL
    rw [list_directory_ok env fs raw d true sh hn hex hdir] at hL
    injection hL with hL'
    subst hL'
    constructor
    · intro e he
      obtain ⟨s, hne, hes, hch, hlen⟩ :=
        addItemsGas_shape 11 fs sh true d 0 e he
      exact ⟨s, hne, hlen, hes, hch⟩
    · intro s hch hlen
      exact addItemsGas_complete s fs sh d 11 0 hch hlen rfl
  · exact ⟨_, list_directory_ok env fs raw d true sh hn hex hdir⟩

/-- Witness for C4: on the deep chain, the non-recursive listing of
`/workspace` returns exactly its single direct child, and the recursive
listing contains the depth-2 descendant. -/
theorem listing_children_and_depth_witness :
    list_directory envW fsChain ⟨mkAbs ["workspace"], false, false⟩ =
      Except.ok ⟨["workspace"], [fileInfoAt fsChain (chainPath 1)], 1⟩ ∧
    fileInfoAt fsChain (chainPath 2) ∈ chainItems := by
  have h := listing_children_and_depth envW fsChain (mkAbs ["workspace"])
    ["workspace"] false rfl rfl
  constructor
  · exact h.1
  · exact (h.2.1 ⟨["workspace"], chainItems, chainItems.length⟩ rfl).2
      ["a1", "a2"] (by decide) (by decide)

/-- C5: per-entry permission errors in a listing are swallowed: for a
readable directory inside an allowed root that contains an unreadable
subdirectory (whose `iterdir` raises `PermissionError`), the listing
still succeeds — the error aborts nothing — and every visible direct
child, the unreadable subdirectory's siblings included, still appears
among the returned entries. -/
theorem listing_swallows_permission_error (env : Env) (fs : Fs) (raw : RawPath)
    (d : Path) (u : String) (rc sh : Bool)
    (hn : normalize_path env fs raw = Except.ok d)
    (hr : lookupFs fs d = some (Node.dir true))
    (hu : lookupFs fs (d ++ [u]) = some (Node.dir false)) :
    list_directory env fs ⟨raw, rc, sh⟩ =
      Except.ok ⟨d, addItems fs sh rc d 0, (addItems fs sh rc d 0).length⟩ ∧
    ∀ n ∈ childNames fs d, visibleName sh n = true →
      fileInfoAt fs (d ++ [n]) ∈ addItems fs sh rc d 0 := by
  have hex : existsAt fs d = true := by
    unfold existsAt
    rw [hr]
    rfl
  have hdir : isDirAt fs d = true := by
    unfold isDirAt
    rw [hr]
  have hread : readableDirAt fs d = true := by
    unfold readableDirAt
    rw [hr]
  refine ⟨list_directory_ok env fs raw d rc sh hn hex hdir, ?_⟩
  intro n hcn hv
  cases rc with
  | false =>
    show fileInfoAt fs (d ++ [n]) ∈ addItemsGas fs sh false (10 + 1) d 0
    rw [addItemsGas_norec fs sh d 10 0 hread]
    exact List.mem_map.mpr ⟨n, List.mem_filter.mpr ⟨hcn, hv⟩, rfl⟩
  | true =>
    have hex' : existsAt fs (d ++ [n]) = true := (childNames_mem_iff fs d n).mp hcn
    have hchain : chainOk fs sh d [n] = true := by
      simp [chainOk, hread, hv, hex']
    exact addItemsGas_complete [n] fs sh d 11 0 hchain (by simp) rfl

/-- Witness for C5: `/workspace` holds the unreadable directory `u`
(hiding a file) and the sibling file `v.txt`; the recursive listing
succeeds and still returns both the entry for `u` and the entry for its
sibling `v.txt`. -/
theorem listing_swallows_permission_error_witness :
    list_directory envW fsPerm ⟨mkAbs ["workspace"], true, false⟩ =
      Except.ok ⟨["workspace"], addItems fsPerm false true ["workspace"] 0,
        (addItems fsPerm false true ["workspace"] 0).length⟩ ∧
    fileInfoAt fsPerm ["workspace", "u"] ∈ addItems fsPerm false true ["workspace"] 0 ∧
    fileInfoAt fsPerm ["workspace", "v.txt"] ∈
      addItems fsPerm false true ["workspace"] 0 := by
  have h := listing_swallows_permission_error envW fsPerm (mkAbs ["workspace"])
    ["workspace"] "u" true false rfl rfl rfl
  exact ⟨h.1, h.2 "u" (by decide) (by decide), h.2 "v.txt" (by decide) (by decide)⟩

/-- C9: with `show_hidden = false` the traversal prunes hidden subtrees
before recursing: every entry a listing returns lies below the listed
directory along a chain of components none of which starts with a dot —
so not only are hidden-named entries omitted, every descendant
reachable only through a hidden directory is omitted as well. -/
theorem hidden_subtree_pruned (env : Env) (fs : Fs) (raw : RawPath) (rc : Bool)
    (d : Path) (L : DirectoryListing)
    (hn : normalize_path env fs raw = Except.ok d)
    (hl : list_directory env fs ⟨raw, rc, false⟩ = Except.ok L) :
    ∀ e ∈ L.items, ∃ s : List String, s ≠ [] ∧ e.path = d ++ s ∧
      ∀ n ∈ s, startsWithDot n = false := by
  unfold list_directory at hl
  rw [hn] at hl
  have hl2 : (if ¬ existsAt fs d then
        (Except.error (Err.http 404 Detail.dirNotFound) :
          Except Err DirectoryListing)
      else if ¬ isDirAt fs d then
        Except.error (Err.http 400 Detail.notADirectory)
      else Except.ok ⟨d, addItems fs false rc d 0,
        (addItems fs false rc d 0).length⟩) = Except.ok L := hl
  by_cases hex : existsAt fs d = true
  · rw [if_neg (not_not_intro hex)] at hl2
    by_cases hdir : isDirAt fs d = true
    · rw [if_neg (not_not_intro hdir)] at hl2
      injection hl2 with h'
      subst h'
      intro e he
      obtain ⟨s, hne, hes, hch, _⟩ := addItemsGas_shape 11 fs false rc d 0 e he
      refine ⟨s, hne, ?_, ?_⟩
      · rw [hes]
        rfl
      · intro n hns
        have hv := chainOk_visible s fs false d hch n hns
        simpa [visibleName] using hv
    · rw [if_pos hdir] at hl2
      exact absurd hl2 (by simp)
  · rw [if_pos hex] at hl2
    exact absurd hl2 (by simp)

/-- Witness for C9: on the filesystem with the hidden subtree
`/workspace/.git/config` and the visible subtree `/workspace/src/m.py`,
the descendant reachable only through the hidden directory `.git` is
absent from the recursive listing. -/
theorem hidden_subtree_pruned_witness :
    (fileInfoAt fsHidden ["workspace", ".git", "config"] ∈
      addItems fsHidden false true ["workspace"] 0) = False := by
  apply eq_false
  intro hmem
  obtain ⟨s, hne, hpath, hvis⟩ := hidden_subtree_pruned envW fsHidden
    (mkAbs ["workspace"]) true ["workspace"]
    ⟨["workspace"], addItems fsHidden false true ["workspace"] 0,
      (addItems fsHidden false true ["workspace"] 0).length⟩ rfl rfl
    (fileInfoAt fsHidden ["workspace", ".git", "config"]) hmem
  have hpath' : ["workspace", ".git", "config"] = ["workspace"] ++ s := hpath
  have hs : s = [".git", "config"] := by
    simpa using hpath'.symm
  have hvg := hvis ".git" (by rw [hs]; exact List.mem_cons_self _ _)
  exact absurd hvg (by decide)
